import Mathlib

/-!
Verification of the `lua_call` script-transformation library.

The source (`lua_call.py`) transforms Lua scripts: it mangles the implicit
argument-vector names `KEYS`/`ARGV` into `_KEYS`/`_ARGV` (regex
`(?<!["\'])((?:KEYS)|(?:ARGV))(?!["\'])` with replacement `_\1`), rewrites
single-line `CALL.<path>(<args>)` call sites (regex
`^(.*?)CALL[.]([a-zA-Z_][a-zA-Z0-9_]*(?:[.][a-zA-Z_][a-zA-Z0-9_]*)*)[(]([^()]+)[)]\s*?$`
with `re.MULTILINE`) into the stack-passing dispatch code, and prepends a
fixed dispatch header.  A process registry maps qualified names to
(`'f_' + sha1 hex`, transformed text); `load_scripts` publishes a
prefix-filtered subset in one pipeline; `_register` rejects names containing
`'.'` and builds an `evalsha` wrapper from the bare digest.

All text is modelled as `List Char`; the regex substitutions are embedded as
explicit character scanners reproducing the Python `re` semantics
(left-to-right, non-overlapping, one-character advance on a failed attempt,
lookarounds against the original text).
-/

namespace LuaCall

/-! ## Identifier mangler (KEYS_RE substitution) -/

/-- The two quote characters appearing in the lookbehind/lookahead of
`KEYS_RE = (?<!["\'])((?:KEYS)|(?:ARGV))(?!["\'])`. -/
def isQuote (c : Char) : Bool := c == '"' || c == '\''

/-- Whether the first character (if any) is a quote; the empty list counts as
no quote, matching the regex lookahead succeeding at end of input. -/
def headQuote : List Char → Bool
  | [] => false
  | c :: _ => isQuote c

/-- The token `KEYS`. -/
def tokKEYS : List Char := ['K', 'E', 'Y', 'S']

/-- The token `ARGV`. -/
def tokARGV : List Char := ['A', 'R', 'G', 'V']

/-- One left-to-right pass of `KEYS_RE.sub(r'_\1', script)`: `pq` records
whether the previous character of the original text is a quote (the
lookbehind); on a match the token is rewritten to `_KEYS`/`_ARGV` and
scanning resumes after it, otherwise the scanner advances one character. -/
def keysSub : Bool → List Char → List Char
  | pq, 'K' :: 'E' :: 'Y' :: 'S' :: rest =>
    if !pq && !headQuote rest then
      '_' :: 'K' :: 'E' :: 'Y' :: 'S' :: keysSub false rest
    else
      'K' :: keysSub false ('E' :: 'Y' :: 'S' :: rest)
  | pq, 'A' :: 'R' :: 'G' :: 'V' :: rest =>
    if !pq && !headQuote rest then
      '_' :: 'A' :: 'R' :: 'G' :: 'V' :: keysSub false rest
    else
      'A' :: keysSub false ('R' :: 'G' :: 'V' :: rest)
  | _, c :: rest => c :: keysSub (isQuote c) rest
  | _, [] => []

/-- Whether the last character of `pre` is a quote, with `pq` the value for
the empty list (the lookbehind state handed to whatever follows `pre`). -/
def lastQuote : Bool → List Char → Bool
  | pq, [] => pq
  | _, c :: rest => lastQuote (isQuote c) rest

/-! ## Call rewriter (CALL_RE substitution) -/

/-- `[a-zA-Z_]`. -/
def isIdentStart (c : Char) : Bool := c.isAlpha || c == '_'

/-- `[a-zA-Z0-9_]`. -/
def isIdentChar (c : Char) : Bool := c.isAlphanum || c == '_'

/-- Greedy continuation of the dotted-path part of `CALL_RE` after at least
one identifier character has been consumed: keeps consuming
`[a-zA-Z0-9_]` characters, and consumes a `'.'` only when an
identifier-start character follows (otherwise the path stops before the
dot, exactly as the greedy regex `[a-zA-Z0-9_]*(?:[.][a-zA-Z_][a-zA-Z0-9_]*)*`
does, since no shorter match can be followed by `'('`). -/
def pathCont : List Char → List Char × List Char
  | [] => ([], [])
  | c :: r =>
    if isIdentChar c then (c :: (pathCont r).1, (pathCont r).2)
    else if c = '.' then
      match r with
      | c2 :: r2 =>
        if isIdentStart c2 then ('.' :: c2 :: (pathCont r2).1, (pathCont r2).2)
        else ([], c :: r)
      | [] => ([], [c])
    else ([], c :: r)

/-- Match `[a-zA-Z_][a-zA-Z0-9_]*(?:[.][a-zA-Z_][a-zA-Z0-9_]*)*` at the head,
returning the matched dotted path and the remainder. -/
def matchName : List Char → Option (List Char × List Char)
  | [] => none
  | c :: r =>
    if isIdentStart c then some (c :: (pathCont r).1, (pathCont r).2) else none

/-- `\s` of Python's `re` module: `[ \t\n\r\f\v]`. -/
def isPySpace (c : Char) : Bool :=
  c == ' ' || c == '\t' || c == '\n' || c == '\r' || c == '\x0c' || c == '\x0b'

/-- The lazy `\s*?$` tail of `CALL_RE` under `re.MULTILINE`: at each step `$`
matches at end of input or just before `'\n'`; otherwise one whitespace
character is consumed; any other character fails the match. Returns the
remainder (starting at the `'\n'`, if any). -/
def lazyWs : List Char → Option (List Char)
  | [] => some []
  | c :: r =>
    if c = '\n' then some (c :: r)
    else if isPySpace c then lazyWs r
    else none

/-- Match `([^()]+)[)]\s*?$` at the head: the maximal nonempty run of
non-parenthesis characters, a closing parenthesis, then `lazyWs`.
Backtracking cannot produce any other split, since a shorter run is
necessarily followed by a non-parenthesis character. -/
def matchArgs (s : List Char) : Option (List Char × List Char) :=
  let a := s.takeWhile fun c => !(c == '(' || c == ')')
  match s.dropWhile fun c => !(c == '(' || c == ')') with
  | ')' :: r => if a.isEmpty then none else (lazyWs r).map fun r2 => (a, r2)
  | _ => none

/-- Attempt the `CALL[.]<path>[(]<args>[)]\s*?$` part of `CALL_RE` at exactly
this position, returning `(path, args, remainder)` on success. -/
def tryCallAt : List Char → Option (List Char × List Char × List Char)
  | 'C' :: 'A' :: 'L' :: 'L' :: '.' :: rest =>
    match matchName rest with
    | some (name, '(' :: rest2) =>
      (matchArgs rest2).map fun p => (name, p.1, p.2)
    | _ => none
  | _ => none

/-- Scan for the first position in the current line where `CALL_RE` completes:
`acc` accumulates (reversed) the characters consumed by the lazy `(.*?)`
group, which cannot cross a newline; on a failed attempt the scanner
advances one character, exactly as the backtracking `(.*?)` does. -/
def tryLine : List Char → List Char → Option (List Char × List Char × List Char × List Char)
  | _, [] => none
  | acc, c :: rest =>
    if c = '\n' then none
    else
      match tryCallAt (c :: rest) with
      | some (name, args, rest3) => some (acc.reverse, name, args, rest3)
      | none => tryLine (c :: acc) rest

/-- `PUSH_STACK_CALL_FCN % (args, left, full)`:
`table.insert(ARGV, {<args>});<left>_G[redis.call('HGET', ':registry', '<full>')]();`. -/
def pushStackCallFcn (args left full : List Char) : List Char :=
  "table.insert(ARGV, \x7b".toList ++ args ++ "\x7d);".toList ++ left ++
    "_G[redis.call('HGET', ':registry', '".toList ++ full ++ "')]();".toList

/-- Strip all leading `'.'` characters (Python `str.lstrip('.')`). -/
def lstripDot : List Char → List Char
  | '.' :: r => lstripDot r
  | s => s

/-- The qualified-name resolution of `fix_calls`: a path already containing a
separator is used as-is, otherwise `(module + '.' + full).lstrip('.')`. -/
def resolveFull (module name : List Char) : List Char :=
  if '.' ∈ name then name else lstripDot (module ++ '.' :: name)

/-- `CALL_RE.sub(fix_calls, script)` by fuel-indexed line scanning: at each
line start attempt a match; on success emit the replacement and resume
scanning after the match (copying up to the next line start), otherwise
copy the line unchanged.  Each step consumes at least one character, so
`length + 1` fuel (supplied by `callSub`) always suffices. -/
def callScan (module : List Char) : Nat → List Char → List Char
  | 0, s => s
  | fuel + 1, s =>
    match tryLine [] s with
    | some (left, name, args, rest) =>
      pushStackCallFcn args left (resolveFull module name) ++
        (match rest.dropWhile fun c => c ≠ '\n' with
         | '\n' :: r => (rest.takeWhile fun c => c ≠ '\n') ++ '\n' :: callScan module fuel r
         | _ => rest)
    | none =>
      match s.dropWhile fun c => c ≠ '\n' with
      | '\n' :: r => (s.takeWhile fun c => c ≠ '\n') ++ '\n' :: callScan module fuel r
      | _ => s

/-- The call rewriter: `CALL_RE.sub(fix_calls, script)`. -/
def callSub (module s : List Char) : List Char :=
  callScan module (s.length + 1) s

/-- The `CALL_HEADER` literal as written in the source, before the
`.replace('\r', '').replace('\n', ' ')` normalisation. -/
def CALL_HEADER_RAW : String :=
  "\nlocal _KEYS, _ARGV;\nif #ARGV == 0 or type(ARGV[#ARGV]) == 'string' then\n    _KEYS = KEYS;\n    _ARGV = ARGV;\nelse\n    _KEYS = ARGV[#ARGV][1];\n    _ARGV = ARGV[#ARGV][2];\n    table.remove(ARGV);\nend;"

/-- `CALL_HEADER = <raw literal>.replace('\r', '').replace('\n', ' ')`. -/
def CALL_HEADER : List Char :=
  (CALL_HEADER_RAW.toList.filter fun c => c ≠ '\r').map fun c =>
    if c = '\n' then ' ' else c

/-- `_fix_calls(script, module)`: mangle `KEYS`/`ARGV`, rewrite the call
sites, then prepend the header. -/
def _fix_calls (script module : List Char) : List Char :=
  CALL_HEADER ++ callSub module (keysSub false script)

/-! ## SHA-1 (the `hashlib.sha1(...).hexdigest()` used by `_register`) -/

/-- Truncate to 32 bits. -/
def w32 (n : Nat) : Nat := n % 4294967296

/-- Rotate a 32-bit value left by `b` bits. -/
def rotl (b n : Nat) : Nat := (n * 2 ^ b + n / 2 ^ (32 - b)) % 4294967296

/-- 32-bit complement. -/
def not32 (n : Nat) : Nat := 4294967295 - n

/-- `k`-byte big-endian encoding of `n`. -/
def toBytesBE : Nat → Nat → List Nat
  | 0, _ => []
  | k + 1, n => toBytesBE k (n / 256) ++ [n % 256]

/-- Combine bytes into big-endian 32-bit words. -/
def bytesToWordsBE : List Nat → List Nat
  | b0 :: b1 :: b2 :: b3 :: r => (((b0 * 256 + b1) * 256 + b2) * 256 + b3) :: bytesToWordsBE r
  | _ => []

/-- Split into 64-byte chunks. -/
def chunks64 : List Nat → List (List Nat)
  | [] => []
  | c :: r => (c :: r).take 64 :: chunks64 ((c :: r).drop 64)
termination_by l => l.length
decreasing_by
  simp [List.length_drop]
  omega

/-- SHA-1 message padding: `0x80`, zeros to 56 mod 64, then the 64-bit
big-endian bit length. -/
def sha1pad (m : List Nat) : List Nat :=
  m ++ 128 :: List.replicate ((119 - m.length % 64) % 64) 0 ++ toBytesBE 8 (8 * m.length)

/-- Extend the 16-word schedule, appending `rotl 1 (w[-3] ^ w[-8] ^ w[-14] ^ w[-16])`
`k` more times. -/
def sha1extend : Nat → List Nat → List Nat
  | 0, w => w
  | k + 1, w =>
    sha1extend k (w ++ [rotl 1 ((w.getD (w.length - 3) 0 ^^^ w.getD (w.length - 8) 0) ^^^
      (w.getD (w.length - 14) 0 ^^^ w.getD (w.length - 16) 0))])

/-- The SHA-1 round function for round `i`. -/
def sha1f (i b c d : Nat) : Nat :=
  if i < 20 then (b &&& c) ||| (not32 b &&& d)
  else if i < 40 then (b ^^^ c) ^^^ d
  else if i < 60 then ((b &&& c) ||| (b &&& d)) ||| (c &&& d)
  else (b ^^^ c) ^^^ d

/-- The SHA-1 round constant for round `i`. -/
def sha1k (i : Nat) : Nat :=
  if i < 20 then 1518500249
  else if i < 40 then 1859775393
  else if i < 60 then 2400959708
  else 3395469782

/-- Run the 80 SHA-1 rounds over the word schedule. -/
def sha1rounds : Nat → List Nat → Nat × Nat × Nat × Nat × Nat → Nat × Nat × Nat × Nat × Nat
  | _, [], st => st
  | i, wi :: ws, (a, b, c, d, e) =>
    sha1rounds (i + 1) ws
      (w32 (rotl 5 a + sha1f i b c d + e + sha1k i + wi), a, rotl 30 b, c, d)

/-- Process one 64-byte chunk into the running state. -/
def sha1chunk (st : Nat × Nat × Nat × Nat × Nat) (chunk : List Nat) :
    Nat × Nat × Nat × Nat × Nat :=
  let w := sha1extend 64 (bytesToWordsBE chunk)
  let (a, b, c, d, e) := sha1rounds 0 w st
  (w32 (st.1 + a), w32 (st.2.1 + b), w32 (st.2.2.1 + c), w32 (st.2.2.2.1 + d),
    w32 (st.2.2.2.2 + e))

/-- The SHA-1 state after hashing `m`. -/
def sha1state (m : List Nat) : Nat × Nat × Nat × Nat × Nat :=
  (chunks64 (sha1pad m)).foldl sha1chunk
    (1732584193, 4023233417, 2562383102, 271733878, 3285377520)

/-- Lowercase hexadecimal digit. -/
def hexDigit (n : Nat) : Char :=
  if n < 10 then Char.ofNat (48 + n) else Char.ofNat (87 + n)

/-- Eight-digit lowercase hex rendering of a 32-bit word. -/
def toHex8 (n : Nat) : List Char :=
  (List.range 8).map fun i => hexDigit (n / 16 ^ (7 - i) % 16)

/-- `hashlib.sha1(bytes).hexdigest()`. -/
def sha1hex (m : List Nat) : List Char :=
  let (h0, h1, h2, h3, h4) := sha1state m
  toHex8 h0 ++ toHex8 h1 ++ toHex8 h2 ++ toHex8 h3 ++ toHex8 h4

/-- The bytes of a script (the Python 2 `str` passed to `sha1`). -/
def strBytes (s : List Char) : List Nat := s.map Char.toNat

/-! ## Registry operations -/

/-- A command issued on the Redis pipeline. -/
inductive RCmd
  | script_load (script : List Char)
  | hset (key field value : List Char)
deriving DecidableEq

/-- The reserved registry key `':registry'`. -/
def registryKey : List Char := ":registry".toList

/-- The process-wide `REGISTRY`: qualified name to (`'f_' + hash`, transformed
text), in registration order. -/
def Registry := List (List Char × List Char × List Char)

instance : DecidableEq Registry := inferInstanceAs (DecidableEq (List _))

/-- Strip all trailing `'.'` characters (Python `str.rstrip('.')`). -/
def rstripDot (s : List Char) : List Char := (lstripDot s.reverse).reverse

/-- Whether `p` is an initial segment of `s` (Python `str.startswith`). -/
def lstarts : List Char → List Char → Bool
  | [], _ => true
  | _ :: _, [] => false
  | p :: ps, c :: cs => p == c && lstarts ps cs

/-- The iteration of `load_scripts` over the registry: for each entry whose
qualified name starts with the (already normalised) `pfx`, queue a
`script_load` of the transformed text and an `hset` of `':registry'`,
counting the entries selected. -/
def loadLoop (pfx : List Char) : Registry → List RCmd × Nat
  | [] => ([], 0)
  | (full, hash, fixed) :: rest =>
    if lstarts pfx full then
      (RCmd.script_load fixed :: RCmd.hset registryKey full hash ::
        (loadLoop pfx rest).1, (loadLoop pfx rest).2 + 1)
    else loadLoop pfx rest

/-- `load_scripts(conn, prefix)`: `'__main__'` is treated as the empty
prefix; a nonempty prefix is normalised to `prefix.rstrip('.') + '.'`;
the selected entries are loaded and registered in one pipeline, and the
count of selected entries is returned. -/
def load_scripts (registry : Registry) (pfx : List Char) : List RCmd × Nat :=
  let p1 := if pfx = "__main__".toList then [] else pfx
  let p2 := if p1.isEmpty then [] else rstripDot p1 ++ ['.']
  loadLoop p2 registry

/-- The error raised by `_register` when the leaf name contains a period
(the spec's `NameConflict`). -/
inductive RegisterError
  | NameConflict
deriving DecidableEq

/-- Replace the entry for `full` if present, otherwise append it
(`REGISTRY[full] = value`). -/
def upsert (registry : Registry) (full hash fixed : List Char) : Registry :=
  match registry with
  | [] => [(full, hash, fixed)]
  | (f, h, x) :: rest =>
    if f = full then (full, hash, fixed) :: rest
    else (f, h, x) :: upsert rest full hash fixed

/-- `_register(name)` followed by `call(script, conn)` with an explicit
namespace: a leaf name containing `'.'` is rejected synchronously, with the
registry untouched and no pipeline commands; otherwise the module
`'__main__'` is replaced by the empty namespace, the script is transformed,
hashed, published (`script_load` + `hset` in one pipeline) and recorded in
the process registry; the qualified name and the bare hex digest (the value
handed to `_caller`) are returned. -/
def _register (name module script : List Char) (registry : Registry) :
    Registry × List RCmd × Except RegisterError (List Char × List Char) :=
  if '.' ∈ name then (registry, [], .error .NameConflict)
  else
    let module2 := if module = "__main__".toList then [] else module
    let full := lstripDot (module2 ++ '.' :: name)
    let fixed := _fix_calls script module2
    let hash := sha1hex (strBytes fixed)
    (upsert registry full (['f', '_'] ++ hash) fixed,
      [RCmd.script_load fixed, RCmd.hset registryKey full (['f', '_'] ++ hash)],
      .ok (full, hash))

/-- The `evalsha` request issued by the wrapper built by `_caller`. -/
structure EvalshaCall (α : Type) where
  scriptId : List Char
  numkeys : Nat
  params : List α
deriving DecidableEq

/-- `_caller(hash)`: the invocation wrapper
`lambda conn, keys, argv: conn.evalsha(hash, len(keys), *(list(keys) + list(argv)))`. -/
def _caller {α : Type} (hash : List Char) (keys argv : List α) : EvalshaCall α :=
  ⟨hash, keys.length, keys ++ argv⟩

/-- The digest component of a successful registration (`[]` on error). -/
def okHash : Except RegisterError (List Char × List Char) → List Char
  | .ok (_, h) => h
  | .error _ => []

/-- The stored hash value of the first registry entry (`[]` when empty). -/
def firstEntryVal : Registry → List Char
  | (_, h, _) :: _ => h
  | [] => []

/-! ## Auxiliary notions used to state the claims -/

/-- Whether `p` occurs as a contiguous run anywhere in `s`. -/
def occursIn (p : List Char) : List Char → Bool
  | [] => lstarts p []
  | c :: rest => lstarts p (c :: rest) || occursIn p rest

/-- The four characters `CALL`. -/
def tokCALL : List Char := ['C', 'A', 'L', 'L']

/-- The marker `CALL.` that a call site starts with. -/
def callDot : List Char := ['C', 'A', 'L', 'L', '.']

/-- The dotted identifier paths matched by the
`[a-zA-Z_][a-zA-Z0-9_]*(?:[.][a-zA-Z_][a-zA-Z0-9_]*)*` group of `CALL_RE`. -/
inductive IdentPath : List Char → Prop
  | single (c : Char) (cs : List Char) :
      isIdentStart c = true → (∀ x ∈ cs, isIdentChar x = true) → IdentPath (c :: cs)
  | dotted (c : Char) (cs rest : List Char) :
      isIdentStart c = true → (∀ x ∈ cs, isIdentChar x = true) → IdentPath rest →
      IdentPath (c :: cs ++ '.' :: rest)

/-- A token occurrence straddling the boundary between `pre` and `ys`: a
nonempty proper prefix of `KEYS` or `ARGV` ends `pre` while the matching
remainder starts `ys`.  No such occurrence can exist when `ys` itself
starts with one of the tokens, which is how this is discharged below. -/
def Straddles (pre ys : List Char) : Prop :=
  ∃ t ∈ [tokKEYS, tokARGV], ∃ k, 0 < k ∧ k < 4 ∧ t.take k <:+ pre ∧ t.drop k <+: ys

/-! ## Lemmas: string scanning basics -/

theorem lstarts_iff {p s : List Char} : lstarts p s = true ↔ ∃ t, s = p ++ t := by
  induction p generalizing s with
  | nil => simp [lstarts]
  | cons a p ih =>
    cases s with
    | nil => simp [lstarts]
    | cons c cs =>
      simp only [lstarts, Bool.and_eq_true, beq_iff_eq, ih, List.cons_append,
        List.cons.injEq]
      constructor
      · rintro ⟨rfl, t, rfl⟩; exact ⟨t, rfl, rfl⟩
      · rintro ⟨t, rfl, rfl⟩; exact ⟨rfl, t, rfl⟩

theorem lstarts_of_append : ∀ (p x : List Char) {y : List Char},
    lstarts p (x ++ y) = true → p.length ≤ x.length → lstarts p x = true
  | [], _, _, _, _ => rfl
  | _ :: _, [], _, _, hl => by simp at hl
  | a :: p, c :: cs, y, h, hl => by
    simp only [List.cons_append, lstarts, Bool.and_eq_true] at h ⊢
    exact ⟨h.1, lstarts_of_append p cs h.2 (by simpa using hl)⟩

theorem occursIn_iff {p s : List Char} :
    occursIn p s = true ↔ ∃ s', s' <:+ s ∧ lstarts p s' = true := by
  induction s with
  | nil =>
    simp only [occursIn]
    constructor
    · exact fun h => ⟨[], List.suffix_refl _, h⟩
    · rintro ⟨s', hs, hl⟩
      rw [List.suffix_nil.mp hs] at hl; exact hl
  | cons c cs ih =>
    simp only [occursIn, Bool.or_eq_true, ih]
    constructor
    · rintro (h | ⟨s', hs, hl⟩)
      · exact ⟨c :: cs, List.suffix_refl _, h⟩
      · exact ⟨s', hs.trans (List.suffix_cons c cs), hl⟩
    · rintro ⟨s', hs, hl⟩
      rcases List.suffix_cons_iff.mp hs with rfl | hs
      · exact Or.inl hl
      · exact Or.inr ⟨s', hs, hl⟩

theorem lstarts_false_of_no_occurs {p s s' : List Char} (h : occursIn p s = false)
    (hs : s' <:+ s) : lstarts p s' = false := by
  by_contra hl
  rw [← ne_eq, Bool.ne_false_iff] at hl
  have : occursIn p s = true := occursIn_iff.mpr ⟨s', hs, hl⟩
  rw [h] at this; exact Bool.false_ne_true this

/-! ## Lemmas: the identifier mangler -/

theorem headQuote_append {ys : List Char} (xs : List Char) (h : headQuote ys = false) :
    headQuote (xs ++ ys) = headQuote xs := by
  cases xs with
  | nil => simpa [headQuote] using h
  | cons c l => rfl

theorem lastQuote_append (pq : Bool) (xs ys : List Char) :
    lastQuote pq (xs ++ ys) = lastQuote (lastQuote pq xs) ys := by
  induction xs generalizing pq with
  | nil => rfl
  | cons c l ih =>
    simp only [List.cons_append, lastQuote, List.append_eq]
    exact ih (isQuote c)

theorem lastQuote_concat (pq : Bool) (xs : List Char) (c : Char) :
    lastQuote pq (xs ++ [c]) = isQuote c := by
  rw [lastQuote_append]; rfl

theorem straddles_mono {pre' pre ys : List Char} (hsuf : pre' <:+ pre)
    (h : Straddles pre' ys) : Straddles pre ys := by
  obtain ⟨t, ht, k, hk0, hk4, h1, h2⟩ := h
  exact ⟨t, ht, k, hk0, hk4, h1.trans hsuf, h2⟩

theorem noStraddle_token {pre ys t : List Char}
    (ht : t ∈ [tokKEYS, tokARGV]) : ¬ Straddles pre (t ++ ys) := by
  rintro ⟨t', ht', k, hk0, hk4, _h1, h2⟩
  obtain ⟨u, hu⟩ := h2
  simp only [List.mem_cons, List.mem_singleton, List.not_mem_nil, or_false] at ht ht'
  rcases ht with rfl | rfl <;> rcases ht' with rfl | rfl <;>
    interval_cases k <;> simp [tokKEYS, tokARGV] at hu

theorem keysSub_generic {c : Char} {rest : List Char} (pq : Bool)
    (hK : lstarts tokKEYS (c :: rest) = false) (hA : lstarts tokARGV (c :: rest) = false) :
    keysSub pq (c :: rest) = c :: keysSub (isQuote c) rest := by
  rw [keysSub.eq_def]
  split
  · rename_i heq
    rw [show tokKEYS = ['K', 'E', 'Y', 'S'] from rfl] at hK
    injection heq with h1 h2
    rw [h1, h2] at hK
    simp [lstarts] at hK
  · rename_i heq
    rw [show tokARGV = ['A', 'R', 'G', 'V'] from rfl] at hA
    injection heq with h1 h2
    rw [h1, h2] at hA
    simp [lstarts] at hA
  · rename_i heq
    injection heq with h1 h2
    rw [h1, h2]
  · rename_i heq
    exact absurd heq (by simp)

theorem keysSub_append : ∀ (n : Nat) (pre : List Char), pre.length ≤ n →
    ∀ (pq : Bool) (ys : List Char), headQuote ys = false → ¬ Straddles pre ys →
    keysSub pq (pre ++ ys) = keysSub pq pre ++ keysSub (lastQuote pq pre) ys := by
  intro n
  induction n with
  | zero =>
    intro pre hlen pq ys _ _
    rw [List.length_eq_zero.mp (Nat.le_zero.mp hlen)]
    rfl
  | succ n ih =>
    intro pre hlen pq ys hhq hns
    by_cases hK : lstarts tokKEYS pre = true
    · obtain ⟨p2, rfl⟩ := lstarts_iff.mp hK
      have hq : headQuote (p2 ++ ys) = headQuote p2 := headQuote_append p2 hhq
      have hlen2 : p2.length ≤ n := by simp [tokKEYS] at hlen; omega
      have hsuf : p2 <:+ tokKEYS ++ p2 := ⟨tokKEYS, rfl⟩
      show keysSub pq ('K' :: 'E' :: 'Y' :: 'S' :: (p2 ++ ys)) =
        keysSub pq ('K' :: 'E' :: 'Y' :: 'S' :: p2) ++ _
      rw [keysSub, keysSub, hq]
      by_cases hg : (!pq && !headQuote p2) = true
      · rw [if_pos hg, if_pos hg,
          ih p2 hlen2 false ys hhq (fun h => hns (straddles_mono hsuf h))]
        have hlq : lastQuote pq (tokKEYS ++ p2) = lastQuote false p2 := by
          simp [tokKEYS, lastQuote, isQuote]
        rw [hlq]
        simp
      · rw [if_neg hg, if_neg hg]
        have hsuf3 : ('E' :: 'Y' :: 'S' :: p2) <:+ tokKEYS ++ p2 := ⟨['K'], rfl⟩
        have hrec := ih ('E' :: 'Y' :: 'S' :: p2) (by simp [tokKEYS] at hlen ⊢; omega)
          false ys hhq (fun h => hns (straddles_mono hsuf3 h))
        simp only [List.cons_append] at hrec
        rw [hrec]
        have hlq : lastQuote pq (tokKEYS ++ p2) =
            lastQuote false ('E' :: 'Y' :: 'S' :: p2) := by simp [tokKEYS, lastQuote, isQuote]
        rw [hlq]
        simp
    · by_cases hA : lstarts tokARGV pre = true
      · obtain ⟨p2, rfl⟩ := lstarts_iff.mp hA
        have hq : headQuote (p2 ++ ys) = headQuote p2 := headQuote_append p2 hhq
        have hlen2 : p2.length ≤ n := by simp [tokARGV] at hlen; omega
        have hsuf : p2 <:+ tokARGV ++ p2 := ⟨tokARGV, rfl⟩
        show keysSub pq ('A' :: 'R' :: 'G' :: 'V' :: (p2 ++ ys)) =
          keysSub pq ('A' :: 'R' :: 'G' :: 'V' :: p2) ++ _
        rw [keysSub, keysSub, hq]
        by_cases hg : (!pq && !headQuote p2) = true
        · rw [if_pos hg, if_pos hg,
            ih p2 hlen2 false ys hhq (fun h => hns (straddles_mono hsuf h))]
          have hlq : lastQuote pq (tokARGV ++ p2) = lastQuote false p2 := by
            simp [tokARGV, lastQuote, isQuote]
          rw [hlq]
          simp
        · rw [if_neg hg, if_neg hg]
          have hsuf3 : ('R' :: 'G' :: 'V' :: p2) <:+ tokARGV ++ p2 := ⟨['A'], rfl⟩
          have hrec := ih ('R' :: 'G' :: 'V' :: p2) (by simp [tokARGV] at hlen ⊢; omega)
            false ys hhq (fun h => hns (straddles_mono hsuf3 h))
          simp only [List.cons_append] at hrec
          rw [hrec]
          have hlq : lastQuote pq (tokARGV ++ p2) =
              lastQuote false ('R' :: 'G' :: 'V' :: p2) := by simp [tokARGV, lastQuote, isQuote]
          rw [hlq]
          simp
      · cases pre with
        | nil => simp [keysSub, lastQuote]
        | cons c p' =>
          have straddleOf : ∀ t : List Char, t ∈ [tokKEYS, tokARGV] →
              lstarts t ((c :: p') ++ ys) = true → lstarts t (c :: p') = false →
              Straddles (c :: p') ys := by
            intro t htm htrue hfalse
            obtain ⟨tail, htail⟩ := lstarts_iff.mp htrue
            have ht4 : t.length = 4 := by
              rcases (by simpa using htm : t = tokKEYS ∨ t = tokARGV) with rfl | rfl <;> rfl
            have hlt : (c :: p').length < 4 := by
              by_contra hge
              have : lstarts t (c :: p') = true :=
                lstarts_of_append t (c :: p') htrue (by omega)
              rw [hfalse] at this; exact Bool.false_ne_true this
            refine ⟨t, htm, (c :: p').length, by simp, hlt, ?_, ?_⟩
            · have h1 : (c :: p') = t.take (c :: p').length := by
                have := congrArg (List.take (c :: p').length) htail
                rwa [List.take_left, List.take_append_of_le_length (by omega)] at this
              rw [← h1]
            · have h2 : ys = t.drop (c :: p').length ++ tail := by
                have := congrArg (List.drop (c :: p').length) htail
                rwa [List.drop_left, List.drop_append_of_le_length (by omega)] at this
              exact ⟨tail, h2.symm⟩
          have hK2 : lstarts tokKEYS ((c :: p') ++ ys) = false := by
            by_contra h
            rw [← ne_eq, Bool.ne_false_iff] at h
            exact hns (straddleOf tokKEYS (by simp) h (Bool.not_eq_true _ ▸ hK))
          have hA2 : lstarts tokARGV ((c :: p') ++ ys) = false := by
            by_contra h
            rw [← ne_eq, Bool.ne_false_iff] at h
            exact hns (straddleOf tokARGV (by simp) h (Bool.not_eq_true _ ▸ hA))
          have e1 : keysSub pq ((c :: p') ++ ys) = c :: keysSub (isQuote c) (p' ++ ys) := by
            rw [List.cons_append] at hK2 hA2 ⊢
            exact keysSub_generic pq hK2 hA2
          have e2 : keysSub pq (c :: p') = c :: keysSub (isQuote c) p' :=
            keysSub_generic pq (Bool.not_eq_true _ ▸ hK) (Bool.not_eq_true _ ▸ hA)
          have hsuf : p' <:+ c :: p' := List.suffix_cons c p'
          rw [e1, e2, ih p' (by simp at hlen; omega)
            (isQuote c) ys hhq (fun h => hns (straddles_mono hsuf h))]
          simp [lastQuote]

theorem keysSub_EYS (post : List Char) :
    keysSub false ('E' :: 'Y' :: 'S' :: post) = 'E' :: 'Y' :: 'S' :: keysSub false post := by
  rw [keysSub_generic false (by simp [tokKEYS, lstarts]) (by simp [tokARGV, lstarts]),
    show isQuote 'E' = false from rfl,
    keysSub_generic false (by simp [tokKEYS, lstarts]) (by simp [tokARGV, lstarts]),
    show isQuote 'Y' = false from rfl,
    keysSub_generic false (by simp [tokKEYS, lstarts]) (by simp [tokARGV, lstarts]),
    show isQuote 'S' = false from rfl]

theorem keysSub_RGV (post : List Char) :
    keysSub false ('R' :: 'G' :: 'V' :: post) = 'R' :: 'G' :: 'V' :: keysSub false post := by
  rw [keysSub_generic false (by simp [tokKEYS, lstarts]) (by simp [tokARGV, lstarts]),
    show isQuote 'R' = false from rfl,
    keysSub_generic false (by simp [tokKEYS, lstarts]) (by simp [tokARGV, lstarts]),
    show isQuote 'G' = false from rfl,
    keysSub_generic false (by simp [tokKEYS, lstarts]) (by simp [tokARGV, lstarts]),
    show isQuote 'V' = false from rfl]

theorem tok_headQuote {t : List Char} (ht : t ∈ [tokKEYS, tokARGV]) (post : List Char) :
    headQuote (t ++ post) = false := by
  rcases (by simpa using ht : t = tokKEYS ∨ t = tokARGV) with rfl | rfl <;> rfl

theorem keysSub_tok_mangle {t post : List Char} (ht : t ∈ [tokKEYS, tokARGV])
    (hq : headQuote post = false) :
    keysSub false (t ++ post) = '_' :: (t ++ keysSub false post) := by
  rcases (by simpa using ht : t = tokKEYS ∨ t = tokARGV) with rfl | rfl
  · show keysSub false ('K' :: 'E' :: 'Y' :: 'S' :: post) = _
    rw [keysSub, if_pos (by simp [hq])]
    rfl
  · show keysSub false ('A' :: 'R' :: 'G' :: 'V' :: post) = _
    rw [keysSub, if_pos (by simp [hq])]
    rfl

theorem keysSub_tok_noMangle {t post : List Char} (pq : Bool)
    (ht : t ∈ [tokKEYS, tokARGV]) (h : pq = true ∨ headQuote post = true) :
    keysSub pq (t ++ post) = t ++ keysSub false post := by
  rcases (by simpa using ht : t = tokKEYS ∨ t = tokARGV) with rfl | rfl
  · show keysSub pq ('K' :: 'E' :: 'Y' :: 'S' :: post) = _
    rw [keysSub, if_neg (by rcases h with rfl | hq <;> simp_all), keysSub_EYS]
    rfl
  · show keysSub pq ('A' :: 'R' :: 'G' :: 'V' :: post) = _
    rw [keysSub, if_neg (by rcases h with rfl | hq <;> simp_all), keysSub_RGV]
    rfl

/-- A token occurrence whose immediate neighbours are not quote characters is
mangled, wherever it sits in the text. -/
theorem keysSub_mangleAt (pre t post : List Char) (ht : t ∈ [tokKEYS, tokARGV])
    (hpre : lastQuote false pre = false) (hpost : headQuote post = false) :
    keysSub false (pre ++ (t ++ post)) =
      keysSub false pre ++ '_' :: (t ++ keysSub false post) := by
  rw [keysSub_append pre.length pre le_rfl false (t ++ post) (tok_headQuote ht post)
      (noStraddle_token ht), hpre, keysSub_tok_mangle ht hpost]

/-- A token occurrence with a quote character immediately before it or
immediately after it is left unmangled. -/
theorem keysSub_noMangleAt (pre t post : List Char) (ht : t ∈ [tokKEYS, tokARGV])
    (h : lastQuote false pre = true ∨ headQuote post = true) :
    keysSub false (pre ++ (t ++ post)) = keysSub false pre ++ (t ++ keysSub false post) := by
  rw [keysSub_append pre.length pre le_rfl false (t ++ post) (tok_headQuote ht post)
      (noStraddle_token ht), keysSub_tok_noMangle (lastQuote false pre) ht h]

theorem identChar_not_quote {c : Char} (h : isIdentChar c = true) : isQuote c = false := by
  by_contra hq
  rw [← ne_eq, Bool.ne_false_iff] at hq
  rcases (by simpa [isQuote] using hq : c = '"' ∨ c = '\'') with rfl | rfl <;>
    exact absurd h (by decide)

/-! ## Lemmas: the call rewriter -/

theorem suffix_append_right {l' left : List Char} (z : List Char) (h : l' <:+ left) :
    l' ++ z <:+ left ++ z := by
  obtain ⟨w, rfl⟩ := h
  exact ⟨w, (List.append_assoc w l' z).symm⟩

theorem identChar_dot : isIdentChar '.' = false := by decide

theorem pathCont_cons_ident {c : Char} (r : List Char) (hc : isIdentChar c = true) :
    pathCont (c :: r) = (c :: (pathCont r).1, (pathCont r).2) := by
  cases r with
  | nil => simp [pathCont, hc]
  | cons c2 r2 => simp [pathCont, hc]

theorem pathCont_dot_ident {c2 : Char} (r2 : List Char) (h2 : isIdentStart c2 = true) :
    pathCont ('.' :: c2 :: r2) = ('.' :: c2 :: (pathCont r2).1, (pathCont r2).2) := by
  simp [pathCont, identChar_dot, h2]

theorem pathCont_stop {c : Char} (r : List Char) (hc : isIdentChar c = false)
    (hd : c ≠ '.') : pathCont (c :: r) = ([], c :: r) := by
  cases r with
  | nil => simp [pathCont, hc, hd]
  | cons c2 r2 => simp [pathCont, hc, hd]

theorem pathCont_ident_append (xs r : List Char)
    (h : ∀ x ∈ xs, isIdentChar x = true) :
    pathCont (xs ++ r) = (xs ++ (pathCont r).1, (pathCont r).2) := by
  induction xs with
  | nil => simp
  | cons c l ih =>
    have hc : isIdentChar c = true := h c (List.mem_cons_self c l)
    rw [List.cons_append, pathCont_cons_ident _ hc,
      ih fun x hx => h x (List.mem_cons_of_mem c hx)]
    simp

theorem pathCont_stop_paren (r : List Char) : pathCont ('(' :: r) = ([], '(' :: r) :=
  pathCont_stop r (by decide) (by decide)

theorem pathCont_dotted {p : List Char} (hp : IdentPath p) (r : List Char) :
    pathCont ('.' :: (p ++ '(' :: r)) = ('.' :: p, '(' :: r) := by
  induction hp with
  | single c cs hc hcs =>
    rw [List.cons_append, pathCont_dot_ident _ hc,
      pathCont_ident_append cs ('(' :: r) hcs, pathCont_stop_paren]
    simp
  | dotted c cs rest hc hcs hrest ih =>
    rw [show (c :: cs ++ '.' :: rest) ++ '(' :: r = c :: (cs ++ '.' :: (rest ++ '(' :: r))
        by simp,
      pathCont_dot_ident _ hc,
      pathCont_ident_append cs ('.' :: (rest ++ '(' :: r)) hcs, ih]
    simp

theorem matchName_path {p : List Char} (hp : IdentPath p) (r : List Char) :
    matchName (p ++ '(' :: r) = some (p, '(' :: r) := by
  cases hp with
  | single c cs hc hcs =>
    rw [List.cons_append]
    show matchName (c :: (cs ++ '(' :: r)) = _
    rw [matchName, if_pos hc, pathCont_ident_append cs ('(' :: r) hcs, pathCont_stop_paren]
    simp
  | dotted c cs rest hc hcs hrest =>
    rw [show (c :: cs ++ '.' :: rest) ++ '(' :: r = c :: (cs ++ '.' :: (rest ++ '(' :: r))
        by simp]
    rw [matchName, if_pos hc,
      pathCont_ident_append cs ('.' :: (rest ++ '(' :: r)) hcs, pathCont_dotted hrest]
    simp

theorem matchArgs_args (args tail : List Char) (hne : args ≠ [])
    (hnp : ∀ c ∈ args, (c == '(' || c == ')') = false) :
    matchArgs (args ++ ')' :: tail) = (lazyWs tail).map fun r2 => (args, r2) := by
  unfold matchArgs
  have ht : List.takeWhile (fun c => !(c == '(' || c == ')')) (args ++ ')' :: tail) =
      args := by
    rw [List.takeWhile_append_of_pos (by simpa using hnp),
      List.takeWhile_cons_of_neg (by decide)]
    simp
  have hd : List.dropWhile (fun c => !(c == '(' || c == ')')) (args ++ ')' :: tail) =
      ')' :: tail := by
    rw [List.dropWhile_append_of_pos (by simpa using hnp),
      List.dropWhile_cons_of_neg (by decide)]
  rw [ht, hd]
  simp [hne]

theorem tryCallAt_correct {name args : List Char} (hp : IdentPath name) (hne : args ≠ [])
    (hnp : ∀ c ∈ args, (c == '(' || c == ')') = false) :
    tryCallAt ('C' :: 'A' :: 'L' :: 'L' :: '.' :: (name ++ '(' :: (args ++ [')']))) =
      some (name, args, []) := by
  have h1 : tryCallAt ('C' :: 'A' :: 'L' :: 'L' :: '.' :: (name ++ '(' :: (args ++ [')']))) =
      match matchName (name ++ '(' :: (args ++ [')'])) with
      | some (nm, '(' :: rest2) => (matchArgs rest2).map fun pr => (nm, pr.1, pr.2)
      | _ => none := rfl
  rw [h1, matchName_path hp]
  have h2 : args ++ [')'] = args ++ ')' :: [] := rfl
  simp only [h2, matchArgs_args args [] hne hnp]
  simp [lazyWs]

theorem tryCallAt_some_starts {s : List Char} {x : List Char × List Char × List Char}
    (h : tryCallAt s = some x) : ∃ rest, s = 'C' :: 'A' :: 'L' :: 'L' :: '.' :: rest := by
  rw [tryCallAt.eq_def] at h
  split at h
  · rename_i rest; exact ⟨rest, rfl⟩
  · simp at h

theorem tryLine_step {c : Char} {rest : List Char} (acc : List Char)
    (hc : c ≠ '\n') (hf : tryCallAt (c :: rest) = none) :
    tryLine acc (c :: rest) = tryLine (c :: acc) rest := by
  rw [tryLine, if_neg hc, hf]

theorem tryLine_found (acc rest : List Char) {name args rest3 : List Char}
    (h : tryCallAt ('C' :: rest) = some (name, args, rest3)) :
    tryLine acc ('C' :: rest) = some (acc.reverse, name, args, rest3) := by
  rw [tryLine, if_neg (by decide), h]

theorem tryLine_skip : ∀ (left acc tail : List Char),
    '\n' ∉ left →
    (∀ l', l' <:+ left → l' ≠ [] → lstarts callDot (l' ++ tail) = false) →
    tryLine acc (left ++ tail) = tryLine (left.reverse ++ acc) tail := by
  intro left
  induction left with
  | nil => intro acc tail _ _; simp
  | cons c l ih =>
    intro acc tail hnl hocc
    have hc : c ≠ '\n' := fun h => hnl (h ▸ List.mem_cons_self c l)
    have hfail : tryCallAt (c :: (l ++ tail)) = none := by
      cases hx : tryCallAt (c :: (l ++ tail)) with
      | none => rfl
      | some x =>
        obtain ⟨r, hr⟩ := tryCallAt_some_starts hx
        have hls : lstarts callDot ((c :: l) ++ tail) = true := by
          rw [List.cons_append, hr]; simp [callDot, lstarts]
        rw [hocc (c :: l) (List.suffix_refl _) (by simp)] at hls
        exact absurd hls Bool.false_ne_true
    rw [List.cons_append, tryLine_step acc hc hfail,
      ih (c :: acc) tail (fun h => hnl (List.mem_cons_of_mem c h))
        (fun l' hs hn => hocc l' (hs.trans (List.suffix_cons c l)) hn)]
    congr 1
    simp

theorem tryLine_line (left name args : List Char)
    (hln : '\n' ∉ left)
    (hocc : occursIn callDot (left ++ tokCALL) = false)
    (hp : IdentPath name) (hne : args ≠ [])
    (hnp : ∀ c ∈ args, (c == '(' || c == ')') = false) :
    tryLine [] (left ++ (callDot ++ (name ++ '(' :: (args ++ [')'])))) =
      some (left, name, args, []) := by
  have hocc2 : ∀ l', l' <:+ left → l' ≠ [] →
      lstarts callDot (l' ++ (callDot ++ (name ++ '(' :: (args ++ [')'])))) = false := by
    intro l' hs hn
    by_contra h
    rw [← ne_eq, Bool.ne_false_iff] at h
    have hassoc : l' ++ (callDot ++ (name ++ '(' :: (args ++ [')']))) =
        (l' ++ tokCALL) ++ ('.' :: (name ++ '(' :: (args ++ [')']))) := by
      rw [List.append_assoc]; rfl
    rw [hassoc] at h
    have hlen : callDot.length ≤ (l' ++ tokCALL).length := by
      have := List.length_pos.mpr hn
      simp [callDot, tokCALL]
      omega
    have hx : lstarts callDot (l' ++ tokCALL) = true :=
      lstarts_of_append callDot (l' ++ tokCALL) h hlen
    have hsuf : (l' ++ tokCALL) <:+ (left ++ tokCALL) := suffix_append_right tokCALL hs
    rw [lstarts_false_of_no_occurs hocc hsuf] at hx
    exact absurd hx Bool.false_ne_true
  rw [tryLine_skip left [] _ hln hocc2]
  have hshape : callDot ++ (name ++ '(' :: (args ++ [')'])) =
      'C' :: ('A' :: 'L' :: 'L' :: '.' :: (name ++ '(' :: (args ++ [')']))) := rfl
  rw [hshape, tryLine_found _ _ (tryCallAt_correct hp hne hnp)]
  simp

theorem tryLine_some_occurs : ∀ (s acc : List Char)
    (x : List Char × List Char × List Char × List Char),
    tryLine acc s = some x → occursIn callDot s = true := by
  intro s
  induction s with
  | nil => intro acc x h; simp [tryLine] at h
  | cons c rest ih =>
    intro acc x h
    rw [tryLine] at h
    by_cases hc : c = '\n'
    · rw [if_pos hc] at h; exact absurd h (by simp)
    · rw [if_neg hc] at h
      cases hx : tryCallAt (c :: rest) with
      | some y =>
        obtain ⟨r, hr⟩ := tryCallAt_some_starts hx
        have hls : lstarts callDot (c :: rest) = true := by
          rw [hr]; simp [callDot, lstarts]
        simp [occursIn, hls]
      | none =>
        rw [hx] at h
        simp [occursIn, ih (c :: acc) x h]

theorem occursIn_false_suffix {p s s' : List Char} (h : occursIn p s = false)
    (hs : s' <:+ s) : occursIn p s' = false := by
  by_contra hx
  rw [← ne_eq, Bool.ne_false_iff] at hx
  obtain ⟨w, hw, hl⟩ := occursIn_iff.mp hx
  have : occursIn p s = true := occursIn_iff.mpr ⟨w, hw.trans hs, hl⟩
  rw [h] at this
  exact Bool.false_ne_true this

theorem dropWhile_suffix_of (p : Char → Bool) (s : List Char) : s.dropWhile p <:+ s := by
  conv_rhs => rw [← List.takeWhile_append_dropWhile (p := p) (l := s)]
  exact ⟨s.takeWhile p, rfl⟩

theorem callScan_free : ∀ (fuel : Nat) (module s : List Char), s.length < fuel →
    occursIn callDot s = false → callScan module fuel s = s := by
  intro fuel
  induction fuel with
  | zero => intro m s h _; exact absurd h (Nat.not_lt_zero _)
  | succ n ih =>
    intro m s hlen hocc
    rw [callScan]
    have ht : tryLine [] s = none := by
      cases hx : tryLine [] s with
      | none => rfl
      | some x =>
        rw [tryLine_some_occurs s [] x hx] at hocc
        exact absurd hocc (by simp)
    rw [ht]
    cases hd : s.dropWhile fun c => c ≠ '\n' with
    | nil => simp [hd]
    | cons d r =>
      by_cases hdn : d = '\n'
      · subst hdn
        have hsuf : ('\n' :: r) <:+ s := hd ▸ dropWhile_suffix_of _ s
        have hrs : r <:+ s := (List.suffix_cons '\n' r).trans hsuf
        have hlen2 : r.length < n := by
          have h1 : ('\n' :: r).length ≤ s.length := hsuf.length_le
          simp at h1
          omega
        simp only [hd]
        rw [ih m r hlen2 (occursIn_false_suffix hocc hrs)]
        conv_rhs => rw [← List.takeWhile_append_dropWhile
          (p := fun c => c ≠ '\n') (l := s)]
        rw [hd]
      · simp [hd, hdn]

/-! ## Lemmas: registry operations -/

theorem loadLoop_filter (pfx : List Char) : ∀ reg : Registry,
    loadLoop pfx reg =
      ((reg.filter fun e => lstarts pfx e.1).flatMap fun e =>
          [RCmd.script_load e.2.2, RCmd.hset registryKey e.1 e.2.1],
        (reg.filter fun e => lstarts pfx e.1).length) := by
  intro reg
  induction reg with
  | nil => rfl
  | cons e rest ih =>
    obtain ⟨full, hash, fixed⟩ := e
    by_cases h : lstarts pfx full = true
    · simp [loadLoop, h, ih, List.filter_cons]
    · simp only [Bool.not_eq_true] at h
      simp [loadLoop, h, ih, List.filter_cons]

theorem loadLoop_nil_pfx (reg : Registry) :
    loadLoop [] reg =
      (reg.flatMap fun e => [RCmd.script_load e.2.2, RCmd.hset registryKey e.1 e.2.1],
        reg.length) := by
  rw [loadLoop_filter]
  have : ∀ e : List Char × List Char × List Char,
      (fun e : List Char × List Char × List Char => lstarts [] e.1) e = true :=
    fun _ => rfl
  simp [List.filter_eq_self.mpr fun a _ => this a]

theorem lstripDot_no_dot {s : List Char} (h : '.' ∉ s) : lstripDot s = s := by
  cases s with
  | nil => rfl
  | cons c r =>
    rw [lstripDot.eq_def]
    split
    · rename_i heq
      injection heq with h1 _
      exact absurd (h1 ▸ List.mem_cons_self '.' r : '.' ∈ c :: r) h
    · rfl

theorem lstripDot_dot_cons (s : List Char) : lstripDot ('.' :: s) = lstripDot s := by
  rw [lstripDot.eq_def]
  rfl

/-! ## Claims -/

/-- C1: every line of the form `<left>CALL.<name>(<args>)` — `left` free of
newlines and of any earlier `CALL.` occurrence, `name` a dotted identifier
path, `args` nonempty and free of parentheses — is replaced by exactly
`table.insert(ARGV, {<args>});<left>_G[redis.call('HGET', ':registry', '<q>')]();`
where `<q>` is `name` as-is when it contains a `'.'`, and otherwise the
module joined to `name` by `'.'` with leading dots stripped. -/
theorem C1_call_site_rewrite (module left name args : List Char)
    (hln : '\n' ∉ left)
    (hocc : occursIn callDot (left ++ tokCALL) = false)
    (hp : IdentPath name)
    (hne : args ≠ [])
    (hnp : ∀ c ∈ args, (c == '(' || c == ')') = false)
    (_hna : '\n' ∉ args) :
    callSub module (left ++ (callDot ++ (name ++ '(' :: (args ++ [')'])))) =
      "table.insert(ARGV, \x7b".toList ++ args ++ "\x7d);".toList ++ left ++
        "_G[redis.call('HGET', ':registry', '".toList ++
        (if '.' ∈ name then name else lstripDot (module ++ '.' :: name)) ++
        "')]();".toList := by
  unfold callSub
  simp only [callScan]
  rw [tryLine_line left name args hln hocc hp hne hnp]
  simp [pushStackCallFcn, resolveFull]

/-- C1 witness: the line `x = CALL.f(a)` under module `m`. -/
theorem C1_call_site_rewrite_witness :
    ('\n' ∉ ['x', ' ', '=', ' ']) ∧
    occursIn callDot (['x', ' ', '=', ' '] ++ tokCALL) = false ∧
    (['a'] ≠ ([] : List Char)) ∧
    callSub ['m'] (['x', ' ', '=', ' '] ++ (callDot ++ (['f'] ++ '(' :: (['a'] ++ [')'])))) =
      "table.insert(ARGV, \x7b".toList ++ ['a'] ++ "\x7d);".toList ++ ['x', ' ', '=', ' '] ++
        "_G[redis.call('HGET', ':registry', '".toList ++
        (if '.' ∈ ['f'] then ['f'] else lstripDot (['m'] ++ '.' :: ['f'])) ++
        "')]();".toList :=
  ⟨by decide, by decide, by decide,
    C1_call_site_rewrite ['m'] ['x', ' ', '=', ' '] ['f'] ['a'] (by decide) (by decide)
      (IdentPath.single 'f' [] (by decide) (by decide)) (by decide) (by decide) (by decide)⟩

/-- C2: the transformation pipeline is mangle, then call-rewrite, then
prepend the fixed header; the header is prepended even to scripts with no
call sites (which otherwise pass through unchanged); and the argument text
embedded in a rewritten call site has already been mangled (`KEYS, ARGV`
appears as `_KEYS, _ARGV`). -/
theorem C2_pipeline_order :
    (∀ script module, _fix_calls script module =
      CALL_HEADER ++ callSub module (keysSub false script)) ∧
    (∀ script module, occursIn callDot (keysSub false script) = false →
      _fix_calls script module = CALL_HEADER ++ keysSub false script) ∧
    _fix_calls "CALL.f(KEYS, ARGV)".toList ['m'] =
      CALL_HEADER ++
        "table.insert(ARGV, \x7b_KEYS, _ARGV\x7d);_G[redis.call('HGET', ':registry', 'm.f')]();".toList := by
  refine ⟨fun _ _ => rfl, ?_, ?_⟩
  · intro script module h
    unfold _fix_calls callSub
    rw [callScan_free _ module _ (Nat.lt_succ_self _) h]
  · have hcs : callSub ['m'] (keysSub false "CALL.f(KEYS, ARGV)".toList) =
        "table.insert(ARGV, \x7b_KEYS, _ARGV\x7d);_G[redis.call('HGET', ':registry', 'm.f')]();".toList := by
      decide
    unfold _fix_calls
    rw [hcs]

/-- C2 witness: a script with no call sites keeps its (mangled) body, with
the header prepended. -/
theorem C2_pipeline_order_witness :
    occursIn callDot (keysSub false "return 1".toList) = false ∧
    _fix_calls "return 1".toList ['m'] = CALL_HEADER ++ keysSub false "return 1".toList :=
  ⟨by decide, C2_pipeline_order.2.1 "return 1".toList ['m'] (by decide)⟩

/-- C3 counterexample: in `'KEYS` the occurrence of `KEYS` is preceded by a
quote but NOT followed by one, so by the claim ("the sole exception is
occurrences immediately preceded and followed by a quote character; every
occurrence not bounded by quote characters on both sides is mangled") it
ought to be mangled to `'_KEYS`; the code leaves it untouched, because the
regex lookbehind alone suppresses the match. -/
theorem C3_counterexample :
    keysSub false ('\'' :: tokKEYS) = '\'' :: tokKEYS ∧
    keysSub false ('\'' :: tokKEYS) ≠ '\'' :: '_' :: tokKEYS := by decide

/-- C3 amended: every occurrence of `KEYS`/`ARGV` whose immediately preceding
character is not a quote AND whose immediately following character is not a
quote is mangled; an occurrence with a quote character on EITHER side
(not only both sides) is left unmangled. -/
theorem C3_amended_mangling :
    (∀ pre t post, t ∈ [tokKEYS, tokARGV] → lastQuote false pre = false →
      headQuote post = false →
      keysSub false (pre ++ (t ++ post)) =
        keysSub false pre ++ '_' :: (t ++ keysSub false post)) ∧
    (∀ pre t post, t ∈ [tokKEYS, tokARGV] →
      lastQuote false pre = true ∨ headQuote post = true →
      keysSub false (pre ++ (t ++ post)) =
        keysSub false pre ++ (t ++ keysSub false post)) :=
  ⟨keysSub_mangleAt, keysSub_noMangleAt⟩

/-- C3 amended witness: `xKEYS ` is mangled, `'KEYS ` is not. -/
theorem C3_amended_mangling_witness :
    (tokKEYS ∈ [tokKEYS, tokARGV] ∧ lastQuote false ['x'] = false ∧
      headQuote [' '] = false ∧ lastQuote false ['\''] = true) ∧
    keysSub false (['x'] ++ (tokKEYS ++ [' '])) =
      keysSub false ['x'] ++ '_' :: (tokKEYS ++ keysSub false [' ']) ∧
    keysSub false (['\''] ++ (tokKEYS ++ [' '])) =
      keysSub false ['\''] ++ (tokKEYS ++ keysSub false [' ']) :=
  ⟨by decide,
    C3_amended_mangling.1 ['x'] tokKEYS [' '] (by decide) (by decide) (by decide),
    C3_amended_mangling.2 ['\''] tokKEYS [' '] (by decide) (Or.inl (by decide))⟩

/-- C4: an occurrence of `KEYS`/`ARGV` immediately bounded by quote
characters on both sides is never mangled; an occurrence inside a longer
quoted string (opening quote `q1` before, closing quote `q2` after, but no
quote directly adjacent on either side) IS mangled — the documented false
positive. -/
theorem C4_quoting_heuristic :
    (∀ pre t post (q1 q2 : Char), t ∈ [tokKEYS, tokARGV] → isQuote q1 = true →
      isQuote q2 = true →
      keysSub false ((pre ++ [q1]) ++ (t ++ q2 :: post)) =
        keysSub false (pre ++ [q1]) ++ (t ++ keysSub false (q2 :: post))) ∧
    (∀ pre mid mid2 post t (q1 q2 c1 c2 : Char), t ∈ [tokKEYS, tokARGV] →
      isQuote q1 = true → isQuote q2 = true → isQuote c1 = false → isQuote c2 = false →
      keysSub false (((pre ++ q1 :: mid) ++ [c1]) ++ (t ++ c2 :: (mid2 ++ q2 :: post))) =
        keysSub false ((pre ++ q1 :: mid) ++ [c1]) ++
          '_' :: (t ++ keysSub false (c2 :: (mid2 ++ q2 :: post)))) := by
  constructor
  · intro pre t post q1 q2 ht h1 _h2
    exact keysSub_noMangleAt (pre ++ [q1]) t (q2 :: post) ht
      (Or.inl (by rw [lastQuote_concat]; exact h1))
  · intro pre mid mid2 post t q1 q2 c1 c2 ht _h1 _h2 h3 h4
    exact keysSub_mangleAt ((pre ++ q1 :: mid) ++ [c1]) t (c2 :: (mid2 ++ q2 :: post)) ht
      (by rw [lastQuote_concat]; exact h3) h4

/-- C4 witness: `('KEYS')` stays unmangled; in `'a KEYS b'` the occurrence is
mangled. -/
theorem C4_quoting_heuristic_witness :
    (tokKEYS ∈ [tokKEYS, tokARGV] ∧ isQuote '\'' = true ∧ isQuote ' ' = false) ∧
    keysSub false ((['('] ++ ['\'']) ++ (tokKEYS ++ '\'' :: [')'])) =
      keysSub false (['('] ++ ['\'']) ++ (tokKEYS ++ keysSub false ('\'' :: [')'])) ∧
    keysSub false ((([] ++ '\'' :: ['a']) ++ [' ']) ++ (tokKEYS ++ ' ' :: (['b'] ++ '\'' :: []))) =
      keysSub false (([] ++ '\'' :: ['a']) ++ [' ']) ++
        '_' :: (tokKEYS ++ keysSub false (' ' :: (['b'] ++ '\'' :: []))) :=
  ⟨by decide,
    C4_quoting_heuristic.1 ['('] tokKEYS [')'] '\'' '\'' (by decide) (by decide) (by decide),
    C4_quoting_heuristic.2 [] ['a'] ['b'] [] tokKEYS '\'' '\'' ' ' ' ' (by decide) (by decide)
      (by decide) (by decide) (by decide)⟩

/-- C5 counterexample: a registry whose only entry is named exactly `a`,
published with prefix `a`: the claim says the entry named `a` is selected
(count 1); the code selects nothing, because it filters on
`startswith("a.")`. -/
theorem C5_counterexample :
    load_scripts [(['a'], ['h'], ['f'])] ['a'] = ([], 0) ∧
    (load_scripts [(['a'], ['h'], ['f'])] ['a']).2 ≠ 1 := by decide

/-- C5 amended: publish with prefix `a` selects exactly the entries whose
qualified name begins with `a.` (an entry named exactly `a` is NOT
selected, and nothing under `ab` is); with an empty prefix it selects every
entry; each selected entry contributes a script-load of its transformed
text and an hset of the `:registry` record, in one batch, and the count of
selected entries is returned. -/
theorem C5_publish_selection :
    (∀ registry : Registry, load_scripts registry ['a'] =
      ((registry.filter fun e => lstarts ['a', '.'] e.1).flatMap fun e =>
          [RCmd.script_load e.2.2, RCmd.hset registryKey e.1 e.2.1],
        (registry.filter fun e => lstarts ['a', '.'] e.1).length)) ∧
    (∀ (registry : Registry) (rest h f : List Char),
      load_scripts (((('a' :: 'b' :: rest) : List Char), h, f) :: registry) ['a'] =
        load_scripts registry ['a']) ∧
    (∀ registry : Registry, load_scripts registry [] =
      (registry.flatMap fun e => [RCmd.script_load e.2.2, RCmd.hset registryKey e.1 e.2.1],
        registry.length)) := by
  have key : ∀ registry : Registry,
      load_scripts registry ['a'] = loadLoop ['a', '.'] registry := fun _ => rfl
  refine ⟨?_, ?_, ?_⟩
  · intro registry
    rw [key, loadLoop_filter]
  · intro registry rest h f
    rw [key, key]
    simp [loadLoop, lstarts]
  · intro registry
    rw [show load_scripts registry [] = loadLoop [] registry from rfl, loadLoop_nil_pfx]

/-- C6: registration is deterministic — identical raw source under an
identical namespace yields identical pipeline commands and identical
results regardless of the pre-existing registry — and the published content
identity is exactly `f_` followed by the SHA-1 hex digest of the fully
transformed text (mangled, call-rewritten, header-prepended). -/
theorem C6_content_identity (name module script : List Char)
    (reg1 reg2 : Registry) (h : '.' ∉ name) :
    (_register name module script reg1).2.1 = (_register name module script reg2).2.1 ∧
    (_register name module script reg1).2.2 = (_register name module script reg2).2.2 ∧
    (_register name module script reg1).2.1 =
      [RCmd.script_load
        (_fix_calls script (if module = "__main__".toList then [] else module)),
       RCmd.hset registryKey
         (lstripDot ((if module = "__main__".toList then [] else module) ++ '.' :: name))
         (['f', '_'] ++ sha1hex (strBytes
           (_fix_calls script (if module = "__main__".toList then [] else module))))] := by
  unfold _register
  rw [if_neg h, if_neg h]
  exact ⟨rfl, rfl, rfl⟩

/-- C6 witness at a concrete registration. -/
theorem C6_content_identity_witness :
    ('.' ∉ ['f']) ∧
    (_register ['f'] ['m'] ['x'] []).2.1 =
      (_register ['f'] ['m'] ['x'] [(['q'], [], [])]).2.1 ∧
    (_register ['f'] ['m'] ['x'] []).2.1 =
      [RCmd.script_load
        (_fix_calls ['x'] (if ['m'] = "__main__".toList then [] else ['m'])),
       RCmd.hset registryKey
         (lstripDot ((if ['m'] = "__main__".toList then [] else ['m']) ++ '.' :: ['f']))
         (['f', '_'] ++ sha1hex (strBytes
           (_fix_calls ['x'] (if ['m'] = "__main__".toList then [] else ['m']))))] :=
  ⟨by decide, (C6_content_identity ['f'] ['m'] ['x'] [] [(['q'], [], [])] (by decide)).1,
    (C6_content_identity ['f'] ['m'] ['x'] [] [(['q'], [], [])] (by decide)).2.2⟩

/-- C7: registration fails if and only if the leaf name contains `'.'`, and
in that case it fails with NameConflict, leaving the process registry
unchanged and issuing no pipeline commands (so no transformation result and
no network effect is produced). -/
theorem C7_name_conflict (name module script : List Char) (registry : Registry) :
    ((∃ e, (_register name module script registry).2.2 = .error e) ↔ '.' ∈ name) ∧
    ('.' ∈ name →
      _register name module script registry =
        (registry, [], .error RegisterError.NameConflict)) := by
  constructor
  · constructor
    · rintro ⟨e, he⟩
      by_contra hn
      unfold _register at he
      rw [if_neg hn] at he
      exact absurd he (by simp)
    · intro h
      exact ⟨RegisterError.NameConflict, by unfold _register; rw [if_pos h]⟩
  · intro h
    unfold _register
    rw [if_pos h]

/-- C7 witness: the name `a.b` is rejected with the registry untouched. -/
theorem C7_name_conflict_witness :
    ('.' ∈ ['a', '.', 'b']) ∧
    _register ['a', '.', 'b'] ['m'] ['x'] [(['q'], [], [])] =
      ([(['q'], [], [])], [], .error RegisterError.NameConflict) :=
  ⟨by decide, (C7_name_conflict ['a', '.', 'b'] ['m'] ['x'] [(['q'], [], [])]).2 (by decide)⟩

/-- C8 counterexample: for a concrete registration the wrapper's evalsha
script identifier is the bare SHA-1 digest, which differs from the content
identity (`f_` + digest) stored in the process registry — so the claim that
the wrapper passes "the script's content identity" is false. -/
theorem C8_counterexample :
    (_caller (okHash (_register ['f'] [] "return 1".toList []).2.2)
        ([] : List (List Char)) []).scriptId ≠
      firstEntryVal (_register ['f'] [] "return 1".toList []).1 := by
  unfold _register
  rw [if_neg (by decide)]
  intro h
  simp only [okHash, _caller, upsert, firstEntryVal] at h
  have hl := congrArg List.length h
  simp only [List.length_append, List.length_cons] at hl
  omega

/-- C8 amended: the Invocation Wrapper issues a single evalsha request
carrying the bare SHA-1 hex digest (the content identity without its `f_`
prefix), then the key count `len(keys)`, then the flattened key-list
elements followed by the flattened argument-list elements. -/
theorem C8_wrapper {α : Type} (name module script : List Char) (registry : Registry)
    (keys argv : List α) (h : '.' ∉ name) :
    _caller (okHash (_register name module script registry).2.2) keys argv =
      ⟨sha1hex (strBytes
          (_fix_calls script (if module = "__main__".toList then [] else module))),
        keys.length, keys ++ argv⟩ := by
  unfold _register
  rw [if_neg h]
  rfl

/-- C8 amended witness at a concrete registration and call. -/
theorem C8_wrapper_witness :
    ('.' ∉ ['f']) ∧
    _caller (okHash (_register ['f'] ['m'] ['x'] []).2.2) [1] [2, 3] =
      ⟨sha1hex (strBytes
          (_fix_calls ['x'] (if ['m'] = "__main__".toList then [] else ['m']))),
        1, [1, 2, 3]⟩ :=
  ⟨by decide, C8_wrapper ['f'] ['m'] ['x'] [] [1] [2, 3] (by decide)⟩

/-- C9: the mangler imposes no word boundary — an occurrence of `KEYS`/`ARGV`
embedded in a longer identifier (identifier characters on both sides, hence
no adjacent quotes) is still mangled by inserting `_` before it; in
particular `MYKEYS` becomes `MY_KEYS` and the pre-mangled alias `_KEYS`
becomes `__KEYS`. -/
theorem C9_no_word_boundary :
    (∀ pre t post (c1 c2 : Char), t ∈ [tokKEYS, tokARGV] → isIdentChar c1 = true →
      isIdentChar c2 = true →
      keysSub false ((pre ++ [c1]) ++ (t ++ c2 :: post)) =
        keysSub false (pre ++ [c1]) ++ '_' :: (t ++ keysSub false (c2 :: post))) ∧
    keysSub false "MYKEYS".toList = "MY_KEYS".toList ∧
    keysSub false "_KEYS".toList = "__KEYS".toList := by
  refine ⟨?_, by decide, by decide⟩
  intro pre t post c1 c2 ht h1 h2
  exact keysSub_mangleAt (pre ++ [c1]) t (c2 :: post) ht
    (by rw [lastQuote_concat]; exact identChar_not_quote h1)
    (identChar_not_quote h2)

/-- C9 witness: `MYKEYS2` exercises the general statement. -/
theorem C9_no_word_boundary_witness :
    (tokKEYS ∈ [tokKEYS, tokARGV] ∧ isIdentChar 'Y' = true ∧ isIdentChar '2' = true) ∧
    keysSub false ((['M'] ++ ['Y']) ++ (tokKEYS ++ '2' :: [])) =
      keysSub false (['M'] ++ ['Y']) ++ '_' :: (tokKEYS ++ keysSub false ('2' :: [])) :=
  ⟨by decide,
    C9_no_word_boundary.1 ['M'] tokKEYS [] 'Y' '2' (by decide) (by decide) (by decide)⟩

/-- C10: the namespace `__main__` is treated as empty — registering from
`__main__` yields a qualified name equal to the bare leaf name, and
publishing with prefix `__main__` selects every registry entry, exactly as
the empty prefix does. -/
theorem C10_main_namespace :
    (∀ name script (registry : Registry), '.' ∉ name →
      (_register name "__main__".toList script registry).2.2 =
        Except.ok (name, sha1hex (strBytes (_fix_calls script [])))) ∧
    (∀ registry : Registry,
      load_scripts registry "__main__".toList =
        (registry.flatMap fun e => [RCmd.script_load e.2.2, RCmd.hset registryKey e.1 e.2.1],
          registry.length)) := by
  constructor
  · intro name script registry h
    have e1 : (_register name "__main__".toList script registry).2.2 =
        Except.ok (lstripDot ('.' :: name),
          sha1hex (strBytes (_fix_calls script []))) := by
      unfold _register
      rw [if_neg h]
      simp
    rw [e1, lstripDot_dot_cons, lstripDot_no_dot h]
  · intro registry
    rw [show load_scripts registry "__main__".toList = loadLoop [] registry from rfl,
      loadLoop_nil_pfx]

/-- C10 witness at a concrete registration. -/
theorem C10_main_namespace_witness :
    ('.' ∉ ['f']) ∧
    (_register ['f'] "__main__".toList ['x'] []).2.2 =
      Except.ok (['f'], sha1hex (strBytes (_fix_calls ['x'] []))) :=
  ⟨by decide, C10_main_namespace.1 ['f'] ['x'] [] (by decide)⟩

end LuaCall
